import Mathlib

/-!
Verification of `novel_crawler.py`, a resumable novel-chapter crawler.

The Python source is shallowly embedded below:

* Python strings are Lean `String`s; character-level operations work on the
  underlying `List Char`.
* `str.rsplit(sep)` / `str.strip()` / `"~" * 30` / `re.findall` on a
  character-class pattern are embedded as executable Lean functions with
  Python's semantics (`pyRsplit`, `pyStrip`, `pyRepeat`, `reFindallRange`).
* The file system is embedded as the optional content of the single archive
  file: `none` means the file does not exist, `some s` means it exists with
  content `s`.  Reading a missing file raises, appending creates the file.
* Exceptions are embedded with `Except PyErr`.  `PyErr.resultNotFound` is
  `ResultNotFoundError` raised by `alter_find` (the spec calls it
  `StructureNotFoundError`), `PyErr.indexError` is an out-of-range list
  subscript, `PyErr.fileNotFound` is `FileNotFoundError` from `open(...)`.
* The HTML query collaborator (BeautifulSoup) is an external library; it is
  modelled from the spec's collaborator contract (§6) over an `Html` tree
  type, with document-order (pre-order) traversal for the find/select
  family, `.string` the transitive single-child string, `.text` the
  concatenation of all descendant strings, and parent/sibling navigation
  by node paths.
-/

/-- Exceptions raised by the embedded program. -/
inductive PyErr where
  /-- `FileNotFoundError` from `open(file, "r")` on a missing file. -/
  | fileNotFound
  /-- `IndexError` from an out-of-range subscript such as `parts[-2]` or `[...][0]`. -/
  | indexError
  /-- `ResultNotFoundError` from `alter_find` (spec name: `StructureNotFoundError`). -/
  | resultNotFound
deriving DecidableEq, Repr

/-- Whitespace as stripped by Python's `str.strip()` (ASCII part). -/
def isPySpace (c : Char) : Bool :=
  c = ' ' || c = '\t' || c = '\n' || c = '\r' || c = '\x0b' || c = '\x0c'

/-- Python `str.strip()` on a character list: drop whitespace from both ends. -/
def pyStripL (l : List Char) : List Char :=
  ((l.dropWhile isPySpace).reverse.dropWhile isPySpace).reverse

/-- Python `str.strip()`. -/
def pyStrip (s : String) : String := String.mk (pyStripL s.data)

/-- Worker for Python `str.split(sep)`: scan left to right; on a match of
`sep` emit the accumulated segment and skip the remaining `sep.length - 1`
matched characters (`skip` counts characters still to consume). -/
def pySplitGo (sep : List Char) (skip : Nat) (acc : List Char) :
    List Char → List (List Char)
  | [] => [acc.reverse]
  | c :: rest =>
    match skip with
    | k + 1 => pySplitGo sep k acc rest
    | 0 =>
      if sep.isPrefixOf (c :: rest) then
        acc.reverse :: pySplitGo sep (sep.length - 1) [] rest
      else pySplitGo sep 0 (c :: acc) rest

/-- Python `str.split(sep)` (non-empty `sep`, no maxsplit): non-overlapping
matches found scanning from the left. -/
def pySplit (sep s : List Char) : List (List Char) := pySplitGo sep 0 [] s

/-- Python `str.rsplit(sep)` (no maxsplit): non-overlapping matches found
scanning from the right; realised by splitting the reversed string on the
reversed separator. -/
def pyRsplit (sep s : List Char) : List (List Char) :=
  ((pySplit sep.reverse s.reverse).map List.reverse).reverse

/-- Python string repetition `s * n`. -/
def pyRepeat (s : String) (n : Nat) : String := String.join (List.replicate n s)

/-- `HOR_RULE = "~" * 30` (novel_crawler.py line 27). -/
def HOR_RULE : String := pyRepeat "~" 30

/-- `MIN_CHARS = 200` (novel_crawler.py line 28). -/
def MIN_CHARS : Nat := 200

/-- `re.findall(r"[一-鿿]", text)`: each character whose code point
lies in `[lo, hi]` is a separate single-character match, in text order. -/
def reFindallRange (lo hi : Nat) : List Char → List String
  | [] => []
  | c :: rest =>
    if lo ≤ c.toNat && c.toNat ≤ hi then
      String.mk [c] :: reFindallRange lo hi rest
    else reFindallRange lo hi rest

/-- `zh_char_count` (novel_crawler.py lines 167-181):
`len(re.findall(ZH_CHARS, text))` with `ZH_CHARS = r"[一-鿿]"`. -/
def zh_char_count (text : String) : Nat :=
  (reFindallRange 0x4E00 0x9FFF text.data).length

/-- `get_last_heading` (novel_crawler.py lines 184-207).  The archive file
is `none` when it does not exist (then `open(..., "r")` raises
`FileNotFoundError`) and `some content` otherwise.  On non-empty content the
code evaluates `content.rsplit(HOR_RULE)[-2].strip()`; the `[-2]` subscript
raises `IndexError` when the rsplit produced fewer than two segments. -/
def get_last_heading (file : Option String) : Except PyErr (Option String) :=
  match file with
  | none => .error .fileNotFound
  | some content =>
    if content = "" then .ok none
    else
      let parts := pyRsplit HOR_RULE.data content.data
      if h : 2 ≤ parts.length then
        .ok (some (pyStrip (String.mk (parts.get ⟨parts.length - 2, by omega⟩))))
      else .error .indexError

/-- `store_chapters` (novel_crawler.py lines 299-312): for each chapter in
order, open the archive in append mode (`"a+"` creates a missing file) and
append the chapter string.  The result is the final file state. -/
def store_chapters (chapters : List String) (file : Option String) : Option String :=
  chapters.foldl (fun acc chapter => some ((acc.getD "") ++ chapter)) file

/-- Concatenation of a list of strings in order. -/
def concatAll : List String → String
  | [] => ""
  | s :: rest => s ++ concatAll rest

/-- An ArchiveRecord (spec §3): rule line, heading, rule line, blank line,
body, two blank lines — exactly the string built by `crawl_novel_body`
(novel_crawler.py lines 288-291). -/
def mkRecord (heading body : String) : String :=
  HOR_RULE ++ "\n" ++ heading ++ "\n" ++ HOR_RULE ++ "\n\n" ++ body ++ "\n\n\n"

/-- An Archive (spec §3): the ordered concatenation of ArchiveRecords. -/
def archiveOf : List (String × String) → String
  | [] => ""
  | r :: rs => mkRecord r.1 r.2 ++ archiveOf rs

/-- Rendered HTML, as seen through the spec's HTML query collaborator (§6):
element nodes with a tag name, attributes and children, and string nodes. -/
inductive Html where
  | txt (s : String)
  | elem (tag : String) (attrs : List (String × String)) (children : List Html)
deriving Repr

/-- Attribute lookup in an attribute list. -/
def attrVal (attrs : List (String × String)) (key : String) : Option String :=
  (attrs.find? (fun p => p.1 == key)).map (fun p => p.2)

/-- `tag.get(key)`: attribute of an element node. -/
def getAttr : Html → String → Option String
  | .txt _, _ => none
  | .elem _ attrs _, key => attrVal attrs key

/-- Whether a node is an element with the given tag name. -/
def isTag : Html → String → Bool
  | .txt _, _ => false
  | .elem t _ _, name => t == name

/-- Whether a node is an element (a bs4 `Tag` as opposed to a string). -/
def isElemB : Html → Bool
  | .txt _ => false
  | .elem _ _ _ => true

/-- bs4 `.string`: a string node is its own string; an element with exactly
one child delegates to it; anything else has no `.string`. -/
def tagString : Html → Option String
  | .txt s => some s
  | .elem _ _ [c] => tagString c
  | .elem _ _ _ => none

mutual

/-- bs4 `.text`: concatenation of all descendant strings in document order. -/
def textOf : Html → String
  | .txt s => s
  | .elem _ _ cs => textOfL cs

/-- `textOf` over a child list. -/
def textOfL : List Html → String
  | [] => ""
  | c :: cs => textOf c ++ textOfL cs

end

mutual

/-- Paths (child-index sequences) of all proper descendants of a node, in
document order (pre-order). -/
def descPaths : Html → List (List Nat)
  | .txt _ => []
  | .elem _ _ cs => descPathsL 0 cs

/-- `descPaths` over a child list, the first child having index `i`. -/
def descPathsL : Nat → List Html → List (List Nat)
  | _, [] => []
  | i, c :: cs => [i] :: ((descPaths c).map (fun p => i :: p) ++ descPathsL (i + 1) cs)

end

/-- The node of a tree at a path. -/
def nodeAt : Html → List Nat → Option Html
  | n, [] => some n
  | .txt _, _ :: _ => none
  | .elem _ _ cs, i :: p =>
    match cs[i]? with
    | none => none
    | some c => nodeAt c p

/-- Class-attribute tokens: the attribute value split on whitespace. -/
def classTokensL : List Char → List Char → List (List Char)
  | [], acc => if acc.isEmpty then [] else [acc.reverse]
  | c :: rest, acc =>
    if isPySpace c then
      if acc.isEmpty then classTokensL rest [] else acc.reverse :: classTokensL rest []
    else classTokensL rest (c :: acc)

/-- CSS class selector test: the `class` attribute contains the token. -/
def hasClassTok (n : Html) (c : String) : Bool :=
  match getAttr n "class" with
  | some v => (classTokensL v.data []).contains c.data
  | none => false

/-- `soup.select(".c")` with paths: all descendant elements carrying class
`c`, in document order, with their paths. -/
def selectPathNodesClass (soup : Html) (c : String) : List (List Nat × Html) :=
  (descPaths soup).filterMap (fun p =>
    match nodeAt soup p with
    | some n => if hasClassTok n c then some (p, n) else none
    | none => none)

/-- `soup.select(".c")`: the matching nodes in document order. -/
def selectAllClass (soup : Html) (c : String) : List Html :=
  (selectPathNodesClass soup c).map (fun pn => pn.2)

/-- `tag.find_all(name=name)`: all descendant elements with the tag name,
in document order. -/
def findAllTag (n : Html) (name : String) : List Html :=
  ((descPaths n).filterMap (nodeAt n)).filter (fun c => isTag c name)

/-- `tag.find(name=name)`: the first such descendant, if any. -/
def findTag (n : Html) (name : String) : Option Html :=
  (findAllTag n name).head?

/-- Whether the node of `soup` at path `p` is an element with tag `name`
whose `.string` equals `s`. -/
def nodeMatchTagString (soup : Html) (name s : String) (p : List Nat) : Bool :=
  match nodeAt soup p with
  | some n => isTag n name && (tagString n == some s)
  | none => false

/-- `cl.find(name=name, string=s)` where `cl` sits at path `base` inside
`soup`: the path of the first descendant element of `cl` (document order)
with the tag name and with `.string` equal to `s`. -/
def findPathTagString (soup : Html) (base : List Nat) (cl : Html)
    (name s : String) : Option (List Nat) :=
  ((descPaths cl).map (fun q => base ++ q)).find? (nodeMatchTagString soup name s)

/-- The proper prefixes of a path, longest (nearest ancestor) first. -/
def properPrefixes : List Nat → List (List Nat)
  | [] => []
  | i :: p => (properPrefixes p).map (fun q => i :: q) ++ [[]]

/-- Whether the node of `soup` at path `p` is an element with tag `name`. -/
def nodeIsTag (soup : Html) (name : String) (p : List Nat) : Bool :=
  match nodeAt soup p with
  | some n => isTag n name
  | none => false

/-- `node.find_parent(name)`: the nearest ancestor element with the tag
name (the node sits at `path` inside `soup`). -/
def findParentTag (soup : Html) (path : List Nat) (name : String) :
    Option (List Nat) :=
  (properPrefixes path).find? (nodeIsTag soup name)

/-- `node.find_next_siblings()`: the element siblings after the node at
`path`, in document order (bs4 returns only `Tag`s when called without
arguments). -/
def findNextSiblings (soup : Html) (path : List Nat) : List Html :=
  match path.getLast? with
  | none => []
  | some i =>
    match nodeAt soup path.dropLast with
    | some (.elem _ _ cs) => (cs.drop (i + 1)).filter isElemB
    | _ => []

/-- `get_headings` (novel_crawler.py lines 210-249), given the parsed soup
of the contents page (the rendering driver and parser are external
collaborators).  With no checkpoint it runs
`chapter_list.find_all(name="a")`; with a checkpoint it locates the `<a>`
whose string equals the checkpoint, takes its `<li>` parent and that
parent's following siblings.  Either way it returns
`[alter_find(tag.find, name="a") for tag in chapter_rest if tag.find("a") is not None]`. -/
def get_headings (soup : Html) (last_heading : Option String) :
    Except PyErr (List Html) :=
  match selectPathNodesClass soup "chapter-list" with
  | [] => .error .resultNotFound
  | (clPath, chapter_list) :: _ =>
    match last_heading with
    | none =>
      let chapter_rest := findAllTag chapter_list "a"
      .ok (chapter_rest.filterMap (fun tag => findTag tag "a"))
    | some last =>
      match findPathTagString soup clPath chapter_list "a" last with
      | none => .error .resultNotFound
      | some targetPath =>
        match findParentTag soup targetPath "li" with
        | none => .error .resultNotFound
        | some parentPath =>
          let chapter_rest := findNextSiblings soup parentPath
          .ok (chapter_rest.filterMap (fun tag => findTag tag "a"))

/-- `crawl_novel_body` (novel_crawler.py lines 252-296).  `contents` is the
link-to-heading dict as an insertion-ordered association list; `site` maps
a link to the parsed soup of its rendered page.  For each pair the body is
`soup.select(".content")[0].text` (the `[0]` raises `IndexError` when no
node matches); a body with fewer than `MIN_CHARS` script characters flags
the pair and leaves the chapter string empty, otherwise the record is
accumulated with `+=`.  The chapter string is appended for every pair. -/
def crawl_novel_body (contents : List (String × String)) (site : String → Html) :
    Except PyErr (List String × List (String × String)) :=
  match contents with
  | [] => .ok ([], [])
  | (link, heading) :: rest =>
    let chapter : String := ""
    match selectAllClass (site link) "content" with
    | [] => .error .indexError
    | node :: _ =>
      let body := textOf node
      let chars := zh_char_count body
      if chars < MIN_CHARS then
        match crawl_novel_body rest site with
        | .error e => .error e
        | .ok (chapters, flags) => .ok (chapter :: chapters, (heading, link) :: flags)
      else
        let chapter := chapter ++ HOR_RULE ++ "\n"
        let chapter := chapter ++ heading ++ "\n"
        let chapter := chapter ++ HOR_RULE ++ "\n\n"
        let chapter := chapter ++ body ++ "\n\n\n"
        match crawl_novel_body rest site with
        | .error e => .error e
        | .ok (chapters, flags) => .ok (chapter :: chapters, flags)

/-- Python dict insertion: an existing key keeps its position and gets the
new value, a new key is appended. -/
def dictInsert (d : List (String × String)) (k v : String) : List (String × String) :=
  if d.any (fun p => p.1 == k) then
    d.map (fun p => if p.1 == k then (k, v) else p)
  else d ++ [(k, v)]

/-- Worker for the dict comprehension in `operation` (lines 330-333). -/
def buildContentsGo (acc : List (String × String)) :
    List Html → Except PyErr (List (String × String))
  | [] => .ok acc
  | tag :: rest =>
    match getAttr tag "href" with
    | none => .error .resultNotFound
    | some href => buildContentsGo (dictInsert acc ("https:" ++ href) (textOf tag)) rest

/-- The dict comprehension in `operation`:
`{("https:" + alter_find(tag.get, key="href")): tag.text for tag in element}`. -/
def buildContents (element : List Html) : Except PyErr (List (String × String)) :=
  buildContentsGo [] element

/-- `operation` (novel_crawler.py lines 315-343): read the checkpoint,
discover headings, build the contents dict, crawl the bodies, append to
the archive.  The first component of the result is the archive file state
after the run (only `store_chapters` writes; an exception anywhere earlier
leaves the file untouched), the second the flags or the exception. -/
def operation (archive : Option String) (site : String → Html) (url : String) :
    Option String × Except PyErr (List (String × String)) :=
  match get_last_heading archive with
  | .error e => (archive, .error e)
  | .ok last_heading =>
    match get_headings (site url) last_heading with
    | .error e => (archive, .error e)
    | .ok element =>
      match buildContents element with
      | .error e => (archive, .error e)
      | .ok contents =>
        match crawl_novel_body contents site with
        | .error e => (archive, .error e)
        | .ok (chapters, flags) => (store_chapters chapters archive, .ok flags)

/-- A chapter link entry of a contents page: `<a href=hrefv>heading</a>`. -/
def aTag (heading hrefv : String) : Html :=
  .elem "a" [("href", hrefv)] [.txt heading]

/-- A list entry of a contents page: `<li><a href=hrefv>heading</a></li>`. -/
def mkEntry (heading hrefv : String) : Html :=
  .elem "li" [] [aTag heading hrefv]

/-- The chapter-list container holding one link entry per chapter. -/
def chapterListDiv (entries : List (String × String)) : Html :=
  .elem "div" [("class", "chapter-list")] (entries.map (fun e => mkEntry e.1 e.2))

/-- A contents page whose container holds a sequence of chapter links
(entry = heading and href). -/
def mkContentsPage (entries : List (String × String)) : Html :=
  .elem "html" [] [chapterListDiv entries]

/-- A chapter page whose content-body node holds the given body text. -/
def mkChapterPage (body : String) : Html :=
  .elem "html" [] [.elem "div" [("class", "content")] [.txt body]]

/-- A chapter page with no node matching the content-body selector. -/
def noContentPage : Html := .elem "html" [] [.elem "p" [] [.txt "oops"]]

/-- The body `crawl_novel_body` extracts for a link: the text of the first
node matching the content-body selector (dummy empty string when none
matches — the crawl raises in that case). -/
def bodyFor (site : String → Html) (link : String) : String :=
  match selectAllClass (site link) "content" with
  | [] => ""
  | node :: _ => textOf node

/-- The chapter string `crawl_novel_body` produces for a pair: empty for a
flagged chapter, the formatted record otherwise. -/
def chapterFor (site : String → Html) (p : String × String) : String :=
  if zh_char_count (bodyFor site p.1) < MIN_CHARS then "" else mkRecord p.2 (bodyFor site p.1)

/-- The flag `crawl_novel_body` records for a pair, if any. -/
def flagFor (site : String → Html) (p : String × String) : Option (String × String) :=
  if zh_char_count (bodyFor site p.1) < MIN_CHARS then some (p.2, p.1) else none

/-! ## Concrete run used to witness the crawl-loop theorems -/

/-- A site with a short first chapter (1 script character) and a long
second chapter (200 script characters). -/
def siteA : String → Html :=
  fun l => if l = "u1" then mkChapterPage "短" else mkChapterPage (pyRepeat "安" 200)

/-- The contents dict of the witness run. -/
def contentsA : List (String × String) := [("u1", "h1"), ("u2", "h2")]

/-- The chapter strings `crawl_novel_body` produces on the witness run. -/
def chaptersA : List String := ["", mkRecord "h2" (pyRepeat "安" 200)]

/-- The flags `crawl_novel_body` produces on the witness run. -/
def flagsA : List (String × String) := [("h1", "u1")]

/-- The heading segment a record contributes between two rule delimiters:
newline, heading, newline. -/
def segA (h : List Char) : List Char := '\n' :: (h ++ ['\n'])

/-- The body segment a record contributes after its second rule delimiter:
blank line, body, two blank lines. -/
def segB (b : List Char) : List Char := '\n' :: '\n' :: (b ++ ['\n', '\n', '\n'])

/-- `archiveOf` at the character level: each record is
rule ++ segA ++ rule ++ segB. -/
def archiveL (recs : List (List Char × List Char)) : List Char :=
  recs.flatMap (fun r => HOR_RULE.data ++ (segA r.1 ++ (HOR_RULE.data ++ segB r.2)))

/-! ## General helper lemmas -/

theorem reFindallRange_length (lo hi : Nat) (l : List Char) :
    (reFindallRange lo hi l).length =
      (l.filter (fun c => lo ≤ c.toNat && c.toNat ≤ hi)).length := by
  induction l with
  | nil => rfl
  | cons c rest ih =>
    by_cases h : lo ≤ c.toNat && c.toNat ≤ hi
    · simp [reFindallRange, List.filter, h, ih]
    · simp [reFindallRange, List.filter, h, ih]

theorem store_chapters_cons (chapter : String) (rest : List String)
    (file : Option String) :
    store_chapters (chapter :: rest) file =
      store_chapters rest (some ((file.getD "") ++ chapter)) := rfl

theorem mkRecord_ne_empty (heading body : String) : mkRecord heading body ≠ "" := by
  intro h
  have hd : (mkRecord heading body).data = [] := by rw [h]
  simp only [mkRecord, String.data_append] at hd
  have : HOR_RULE.data = [] := by
    cases hh : HOR_RULE.data with
    | nil => rfl
    | cons c cs => rw [hh] at hd; exact absurd hd (by simp)
  exact absurd this (by decide)

theorem keys_inj {l : List (String × String)}
    (hnd : (l.map Prod.fst).Nodup) {p q : String × String}
    (hp : p ∈ l) (hq : q ∈ l) (hk : p.1 = q.1) : p = q := by
  obtain ⟨i, hi, hpe⟩ := List.mem_iff_getElem.mp hp
  obtain ⟨j, hj, hqe⟩ := List.mem_iff_getElem.mp hq
  have hi2 : i < (l.map Prod.fst).length := by simpa using hi
  have hj2 : j < (l.map Prod.fst).length := by simpa using hj
  have hmap : (l.map Prod.fst)[i] = (l.map Prod.fst)[j] := by
    simpa [List.getElem_map] using hpe ▸ hqe ▸ hk
  have hij : i = j := (hnd.getElem_inj_iff).mp hmap
  subst hij
  rw [← hpe, ← hqe]

/-! ## The crawl loop: characterisation of a successful run -/

theorem crawl_novel_body_ok_inv (site : String → Html) :
    ∀ (contents : List (String × String)) (chs : List String)
      (fls : List (String × String)),
      crawl_novel_body contents site = .ok (chs, fls) →
      chs = contents.map (chapterFor site) ∧
      fls = contents.filterMap (flagFor site) ∧
      ∀ p ∈ contents, selectAllClass (site p.1) "content" ≠ [] := by
  intro contents
  induction contents with
  | nil =>
    intro chs fls h
    simp only [crawl_novel_body, Except.ok.injEq, Prod.mk.injEq] at h
    obtain ⟨h1, h2⟩ := h
    simp [← h1, ← h2]
  | cons p rest ih =>
    obtain ⟨link, heading⟩ := p
    intro chs fls h
    cases hsel : selectAllClass (site link) "content" with
    | nil =>
      rw [crawl_novel_body, hsel] at h
      exact absurd h (by simp)
    | cons node tl =>
      rw [crawl_novel_body, hsel] at h
      simp only at h
      have hb : bodyFor site link = textOf node := by simp [bodyFor, hsel]
      by_cases hlt : zh_char_count (textOf node) < MIN_CHARS
      · rw [if_pos hlt] at h
        cases hr : crawl_novel_body rest site with
        | error e => rw [hr] at h; exact absurd h (by simp)
        | ok pr =>
          obtain ⟨chs0, fls0⟩ := pr
          rw [hr] at h
          simp only [Except.ok.injEq, Prod.mk.injEq] at h
          obtain ⟨hc, hf⟩ := h
          obtain ⟨ih1, ih2, ih3⟩ := ih chs0 fls0 hr
          subst ih1 ih2
          refine ⟨?_, ?_, ?_⟩
          · rw [← hc]
            simp [chapterFor, hb, hlt]
          · rw [← hf]
            simp [flagFor, hb, hlt]
          · intro q hq
            rcases List.mem_cons.mp hq with hq | hq
            · subst hq; simp [hsel]
            · exact ih3 q hq
      · rw [if_neg hlt] at h
        cases hr : crawl_novel_body rest site with
        | error e => rw [hr] at h; exact absurd h (by simp)
        | ok pr =>
          obtain ⟨chs0, fls0⟩ := pr
          rw [hr] at h
          simp only [Except.ok.injEq, Prod.mk.injEq] at h
          obtain ⟨hc, hf⟩ := h
          obtain ⟨ih1, ih2, ih3⟩ := ih chs0 fls0 hr
          subst ih1 ih2
          refine ⟨?_, ?_, ?_⟩
          · rw [← hc]
            simp [chapterFor, hb, hlt, mkRecord, String.empty_append]
          · rw [← hf]
            simp [flagFor, hb, hlt]
          · intro q hq
            rcases List.mem_cons.mp hq with hq | hq
            · subst hq; simp [hsel]
            · exact ih3 q hq

theorem mkRecord_explicit (heading body : String) :
    mkRecord heading body = "~~~~~~~~~~~~~~~~~~~~~~~~~~~~~~\n" ++ heading
      ++ "\n~~~~~~~~~~~~~~~~~~~~~~~~~~~~~~\n\n" ++ body ++ "\n\n\n" := by
  rw [show ("~~~~~~~~~~~~~~~~~~~~~~~~~~~~~~\n" : String) = HOR_RULE ++ "\n" from rfl,
      show ("\n~~~~~~~~~~~~~~~~~~~~~~~~~~~~~~\n\n" : String) = "\n" ++ HOR_RULE ++ "\n\n" from rfl,
      mkRecord]
  simp [String.append_assoc]

/-! ## Claim theorems: classifier, reader, writer, fetcher -/

/-- Claim C8: `zh_char_count text` equals the number of characters of
`text` whose code points lie in U+4E00..U+9FFF inclusive; it is a
non-negative integer, `count("") = 0`, `count("哈哈") = 2`,
`count("abc") = 0` (purity is inherent: it is a Lean function of `text`). -/
theorem zh_char_count_spec :
    (∀ text : String, zh_char_count text
        = (text.data.filter (fun c => 0x4E00 ≤ c.toNat && c.toNat ≤ 0x9FFF)).length)
    ∧ zh_char_count "" = 0 ∧ zh_char_count "哈哈" = 2 ∧ zh_char_count "abc" = 0
    ∧ ∀ text : String, 0 ≤ zh_char_count text :=
  ⟨fun text => reFindallRange_length _ _ text.data, rfl, rfl, rfl, fun _ => Nat.zero_le _⟩

/-- Claim C9: `store_chapters` is append-only — the resulting file content
is exactly the prior content followed by the chapter strings concatenated
in list order. -/
theorem store_chapters_append_only (chapters : List String) (prior : String) :
    store_chapters chapters (some prior) = some (prior ++ concatAll chapters) := by
  induction chapters generalizing prior with
  | nil => simp [store_chapters, concatAll]
  | cons c rest ih =>
    rw [store_chapters_cons]
    simp only [Option.getD_some]
    rw [ih, concatAll, ← String.append_assoc]

/-- Claim C1 counterexample: on a missing archive file `get_last_heading`
raises `FileNotFoundError` instead of returning absent. -/
theorem get_last_heading_missing_file_counterexample :
    get_last_heading none = .error .fileNotFound ∧ get_last_heading none ≠ .ok none :=
  ⟨rfl, fun h => Except.noConfusion h⟩

/-- Claim C1 (amended): `get_last_heading` returns absent (without raising)
when the archive file exists with empty content; when the archive file does
not exist, `open(..., "r")` raises `FileNotFoundError`. -/
theorem get_last_heading_empty_or_missing :
    get_last_heading (some "") = .ok none
    ∧ get_last_heading none = .error .fileNotFound :=
  ⟨rfl, rfl⟩

/-- Claim C10: a successful `crawl_novel_body` run returns exactly one
chapter string per input pair (the chapter list has the length of the
input), and a pair is flagged iff its chapter entry is the empty string. -/
theorem crawl_one_chapter_per_pair
    (contents : List (String × String)) (site : String → Html)
    (chs : List String) (fls : List (String × String))
    (hnd : (contents.map Prod.fst).Nodup)
    (hok : crawl_novel_body contents site = .ok (chs, fls)) :
    chs.length = contents.length ∧
    ∀ i, (hi : i < contents.length) →
      ((contents[i].2, contents[i].1) ∈ fls ↔ chs[i]? = some "") := by
  obtain ⟨hc, hf, _⟩ := crawl_novel_body_ok_inv site contents chs fls hok
  subst hc hf
  refine ⟨by simp, ?_⟩
  intro i hi
  have hget : (contents.map (chapterFor site))[i]? = some (chapterFor site contents[i]) := by
    simp [List.getElem?_eq_getElem hi]
  rw [hget]
  constructor
  · intro hmem
    obtain ⟨p, hp, hfp⟩ := List.mem_filterMap.mp hmem
    have hbelow : zh_char_count (bodyFor site p.1) < MIN_CHARS := by
      by_contra hge
      simp [flagFor, hge] at hfp
    have hpair : p.2 = contents[i].2 ∧ p.1 = contents[i].1 := by
      simpa [flagFor, hbelow, Prod.ext_iff] using hfp
    have hpeq : p = contents[i] :=
      keys_inj hnd hp (List.mem_iff_getElem.mpr ⟨i, hi, rfl⟩) hpair.2
    rw [← hpeq]
    simp [chapterFor, hbelow]
  · intro hch
    have hch2 : chapterFor site contents[i] = "" := by simpa using hch
    have hbelow : zh_char_count (bodyFor site contents[i].1) < MIN_CHARS := by
      by_contra hge
      rw [chapterFor, if_neg hge] at hch2
      exact mkRecord_ne_empty _ _ hch2
    exact List.mem_filterMap.mpr
      ⟨contents[i], List.mem_iff_getElem.mpr ⟨i, hi, rfl⟩, by simp [flagFor, hbelow]⟩

set_option maxRecDepth 400000 in
/-- Witness for C10 at the concrete run `contentsA`/`siteA`. -/
theorem crawl_one_chapter_per_pair_witness :
    chaptersA.length = contentsA.length ∧
    ((contentsA[0].2, contentsA[0].1) ∈ flagsA ↔ chaptersA[0]? = some "") := by
  have h := crawl_one_chapter_per_pair contentsA siteA chaptersA flagsA (by decide) (by rfl)
  exact ⟨h.1, h.2 0 (by decide)⟩

/-- Claim C6: in a successful `crawl_novel_body` run, a pair whose
extracted body has fewer than `MIN_CHARS` script characters appears in the
flags and contributes the empty string (no record text) to the chapter
list; a pair with at least `MIN_CHARS` gets its formatted record in the
chapter list and does not appear in the flags. -/
theorem crawl_flag_correctness
    (contents : List (String × String)) (site : String → Html)
    (chs : List String) (fls : List (String × String))
    (hnd : (contents.map Prod.fst).Nodup)
    (hok : crawl_novel_body contents site = .ok (chs, fls))
    (i : Nat) (hi : i < contents.length) :
    (zh_char_count (bodyFor site contents[i].1) < MIN_CHARS →
       (contents[i].2, contents[i].1) ∈ fls ∧ chs[i]? = some "")
    ∧ (MIN_CHARS ≤ zh_char_count (bodyFor site contents[i].1) →
       chs[i]? = some (mkRecord contents[i].2 (bodyFor site contents[i].1)) ∧
         (contents[i].2, contents[i].1) ∉ fls) := by
  obtain ⟨hc, hf, _⟩ := crawl_novel_body_ok_inv site contents chs fls hok
  subst hc hf
  have hget : (contents.map (chapterFor site))[i]? = some (chapterFor site contents[i]) := by
    simp [List.getElem?_eq_getElem hi]
  constructor
  · intro hlt
    refine ⟨List.mem_filterMap.mpr
      ⟨contents[i], List.mem_iff_getElem.mpr ⟨i, hi, rfl⟩, by simp [flagFor, hlt]⟩, ?_⟩
    rw [hget]
    simp [chapterFor, hlt]
  · intro hge
    have hnlt : ¬ zh_char_count (bodyFor site contents[i].1) < MIN_CHARS := by omega
    refine ⟨by rw [hget]; simp [chapterFor, hnlt], ?_⟩
    intro hmem
    obtain ⟨p, hp, hfp⟩ := List.mem_filterMap.mp hmem
    have hbelow : zh_char_count (bodyFor site p.1) < MIN_CHARS := by
      by_contra hge2
      simp [flagFor, hge2] at hfp
    have hpair : p.2 = contents[i].2 ∧ p.1 = contents[i].1 := by
      simpa [flagFor, hbelow, Prod.ext_iff] using hfp
    have hpeq : p = contents[i] :=
      keys_inj hnd hp (List.mem_iff_getElem.mpr ⟨i, hi, rfl⟩) hpair.2
    rw [hpeq] at hbelow
    omega

set_option maxRecDepth 400000 in
/-- Witness for C6: in the concrete run the short chapter is flagged with
an empty chapter entry and the long one is archived and unflagged. -/
theorem crawl_flag_correctness_witness :
    ((contentsA[0].2, contentsA[0].1) ∈ flagsA ∧ chaptersA[0]? = some "")
    ∧ (chaptersA[1]? = some (mkRecord contentsA[1].2 (bodyFor siteA contentsA[1].1)) ∧
        (contentsA[1].2, contentsA[1].1) ∉ flagsA) :=
  ⟨(crawl_flag_correctness contentsA siteA chaptersA flagsA (by decide) (by rfl)
      0 (by decide)).1 (by decide),
   (crawl_flag_correctness contentsA siteA chaptersA flagsA (by decide) (by rfl)
      1 (by decide)).2 (by decide)⟩

/-- Claim C7: the string produced for the archive for a validated chapter
is exactly rule + newline + heading + newline + rule + blank line + body +
two blank lines, the rule being thirty tildes. -/
theorem crawl_record_format
    (contents : List (String × String)) (site : String → Html)
    (chs : List String) (fls : List (String × String))
    (hok : crawl_novel_body contents site = .ok (chs, fls))
    (i : Nat) (hi : i < contents.length)
    (hge : MIN_CHARS ≤ zh_char_count (bodyFor site contents[i].1)) :
    chs[i]? = some ("~~~~~~~~~~~~~~~~~~~~~~~~~~~~~~\n" ++ contents[i].2
      ++ "\n~~~~~~~~~~~~~~~~~~~~~~~~~~~~~~\n\n" ++ bodyFor site contents[i].1
      ++ "\n\n\n") := by
  obtain ⟨hc, _, _⟩ := crawl_novel_body_ok_inv site contents chs fls hok
  subst hc
  have hnlt : ¬ zh_char_count (bodyFor site contents[i].1) < MIN_CHARS := by omega
  have hget : (contents.map (chapterFor site))[i]? = some (chapterFor site contents[i]) := by
    simp [List.getElem?_eq_getElem hi]
  rw [hget, chapterFor, if_neg hnlt, mkRecord_explicit]

set_option maxRecDepth 400000 in
/-- Witness for C7 at the long chapter of the concrete run. -/
theorem crawl_record_format_witness :
    chaptersA[1]? = some ("~~~~~~~~~~~~~~~~~~~~~~~~~~~~~~\n" ++ contentsA[1].2
      ++ "\n~~~~~~~~~~~~~~~~~~~~~~~~~~~~~~\n\n" ++ bodyFor siteA contentsA[1].1
      ++ "\n\n\n") :=
  crawl_record_format contentsA siteA chaptersA flagsA (by rfl) 1 (by decide) (by decide)

/-- Claim C5 counterexample: when no node matches the content-body
selector, `crawl_novel_body` raises `IndexError` (from
`soup.select(".content")[0]`), not the not-found error `alter_find` would
raise (spec name `StructureNotFoundError`). -/
theorem crawl_missing_body_node_counterexample :
    crawl_novel_body [("u1", "h1")] (fun _ => noContentPage) = .error .indexError
    ∧ PyErr.indexError ≠ PyErr.resultNotFound :=
  ⟨rfl, by decide⟩

/-- Claim C5 (amended): in a successful run every chapter body is taken
from the first node matching the content-body selector (that is what
`bodyFor`, hence `chapterFor`, reads), and when no node matches, the fetch
fails — but with `IndexError`, not `StructureNotFoundError`. -/
theorem crawl_body_first_match :
    (∀ (contents : List (String × String)) (site : String → Html)
       (chs : List String) (fls : List (String × String)),
       crawl_novel_body contents site = .ok (chs, fls) →
       ∀ i, (hi : i < contents.length) →
         selectAllClass (site contents[i].1) "content" ≠ [] ∧
         chs[i]? = some (chapterFor site contents[i]))
    ∧ ∀ (link heading : String) (rest : List (String × String)) (site : String → Html),
        selectAllClass (site link) "content" = [] →
        crawl_novel_body ((link, heading) :: rest) site = .error .indexError := by
  constructor
  · intro contents site chs fls hok i hi
    obtain ⟨hc, _, hsel⟩ := crawl_novel_body_ok_inv site contents chs fls hok
    subst hc
    exact ⟨hsel _ (List.mem_iff_getElem.mpr ⟨i, hi, rfl⟩),
      by simp [List.getElem?_eq_getElem hi]⟩
  · intro link heading rest site hnone
    rw [crawl_novel_body, hnone]

set_option maxRecDepth 400000 in
/-- Witness for C5 (amended) at the concrete run and at a page with no
content node. -/
theorem crawl_body_first_match_witness :
    (selectAllClass (siteA contentsA[0].1) "content" ≠ [] ∧
      chaptersA[0]? = some (chapterFor siteA contentsA[0]))
    ∧ crawl_novel_body [("u9", "h9")] (fun _ => noContentPage) = .error .indexError :=
  ⟨crawl_body_first_match.1 contentsA siteA chaptersA flagsA (by rfl) 0 (by decide),
   crawl_body_first_match.2 "u9" "h9" [] (fun _ => noContentPage) (by rfl)⟩

/-! ## Discovery over canonical contents pages -/

theorem descPaths_mkEntry (heading hrefv : String) :
    descPaths (mkEntry heading hrefv) = [[0], [0, 0]] := rfl

theorem tagString_aTag (heading hrefv : String) :
    tagString (aTag heading hrefv) = some heading := rfl

theorem tagString_single_txt (t : String) (attrs : List (String × String)) (s : String) :
    tagString (.elem t attrs [.txt s]) = some s := rfl

theorem findTag_mkEntry (heading hrefv : String) :
    findTag (mkEntry heading hrefv) "a" = some (aTag heading hrefv) := rfl

theorem nodeAt_elem_single (t : String) (attrs : List (String × String))
    (cs : List Html) (j : Nat) (c : Html) (h : cs[j]? = some c) :
    nodeAt (.elem t attrs cs) [j] = some c := by
  simp [nodeAt, h]

theorem nodeAt_append (r : Html) (p q : List Nat) :
    nodeAt r (p ++ q) = (nodeAt r p).bind (fun n => nodeAt n q) := by
  induction p generalizing r with
  | nil => simp [nodeAt]
  | cons i p ih =>
    cases r with
    | txt s => simp [nodeAt]
    | elem t a cs =>
      simp only [List.cons_append, nodeAt]
      cases cs[i]? with
      | none => simp
      | some c => simp [ih]

theorem selectPathNodesClass_page (entries : List (String × String)) :
    ∃ rest, selectPathNodesClass (mkContentsPage entries) "chapter-list"
      = ([0], chapterListDiv entries) :: rest := by
  have hdp : descPaths (mkContentsPage entries)
      = [0] :: (descPaths (chapterListDiv entries)).map (fun p => 0 :: p) := by
    simp [mkContentsPage, descPaths, descPathsL]
  have hnode : nodeAt (mkContentsPage entries) [0] = some (chapterListDiv entries) := rfl
  have hcl : hasClassTok (chapterListDiv entries) "chapter-list" = true := rfl
  refine ⟨((descPaths (chapterListDiv entries)).map (fun p => 0 :: p)).filterMap (fun p =>
    match nodeAt (mkContentsPage entries) p with
    | some n => if hasClassTok n "chapter-list" then some (p, n) else none
    | none => none), ?_⟩
  rw [selectPathNodesClass, hdp, List.filterMap_cons]
  simp [hnode, hcl]

theorem find_target_core (cp href : String) (post : List (String × String))
    (dt : String) (da : List (String × String)) (cs : List Html) :
    ∀ (pre : List (String × String)) (i : Nat),
      (∀ j, cs[i + j]? = ((pre ++ (cp, href) :: post).map (fun e => mkEntry e.1 e.2))[j]?) →
      (∀ e ∈ pre, e.1 ≠ cp) →
      (descPathsL i ((pre ++ (cp, href) :: post).map (fun e => mkEntry e.1 e.2))).find?
          (nodeMatchTagString (.elem dt da cs) "a" cp)
        = some [i + pre.length, 0] := by
  intro pre
  induction pre with
  | nil =>
    intro i hcs _
    have hm : cs[i]? = some (mkEntry cp href) := by
      have := hcs 0
      simpa using this
    have e1 : nodeMatchTagString (.elem dt da cs) "a" cp [i] = false := by
      simp [nodeMatchTagString, nodeAt, hm, mkEntry, isTag]
    have e2 : nodeMatchTagString (.elem dt da cs) "a" cp [i, 0] = true := by
      simp [nodeMatchTagString, nodeAt, hm, mkEntry, aTag, isTag, tagString]
    simp only [List.nil_append, List.map_cons, descPathsL, descPaths_mkEntry]
    rw [List.find?_cons_of_neg _ (by simp [e1])]
    simp only [List.map_cons, List.map_nil, List.cons_append, List.nil_append]
    rw [List.find?_cons_of_pos _ (by simp [e2])]
    simp
  | cons e pre ih =>
    intro i hcs hpre
    have hm : cs[i]? = some (mkEntry e.1 e.2) := by
      have := hcs 0
      simpa using this
    have hne : e.1 ≠ cp := hpre e (List.mem_cons_self e pre)
    have e1 : nodeMatchTagString (.elem dt da cs) "a" cp [i] = false := by
      simp [nodeMatchTagString, nodeAt, hm, mkEntry, isTag]
    have e2 : nodeMatchTagString (.elem dt da cs) "a" cp [i, 0] = false := by
      simp [nodeMatchTagString, nodeAt, hm, mkEntry, aTag, isTag, tagString, hne]
    have e3 : nodeMatchTagString (.elem dt da cs) "a" cp [i, 0, 0] = false := by
      simp [nodeMatchTagString, nodeAt, hm, mkEntry, aTag, isTag, tagString]
    have hcs2 : ∀ j, cs[(i + 1) + j]?
        = ((pre ++ (cp, href) :: post).map (fun x => mkEntry x.1 x.2))[j]? := by
      intro j
      have := hcs (j + 1)
      rw [show i + (j + 1) = (i + 1) + j by omega] at this
      simpa using this
    have ihr := ih (i + 1) hcs2 (fun x hx => hpre x (List.mem_cons_of_mem e hx))
    simp only [List.cons_append, List.map_cons, descPathsL, descPaths_mkEntry]
    rw [List.find?_cons_of_neg _ (by simp [e1])]
    simp only [List.map_cons, List.map_nil, List.cons_append, List.nil_append]
    rw [List.find?_cons_of_neg _ (by simp [e2]), List.find?_cons_of_neg _ (by simp [e3])]
    rw [show pre.append ((cp, href) :: post) = pre ++ (cp, href) :: post from rfl, ihr]
    simp only [List.length_cons]
    congr 2
    omega

theorem mem_descPathsL_mkE :
    ∀ (entries : List (String × String)) (i : Nat) (q : List Nat),
      q ∈ descPathsL i (entries.map (fun e => mkEntry e.1 e.2)) →
      ∃ j, j < entries.length ∧ (q = [i + j] ∨ q = [i + j, 0] ∨ q = [i + j, 0, 0]) := by
  intro entries
  induction entries with
  | nil => intro i q hq; simp [descPathsL] at hq
  | cons e rest ih =>
    intro i q hq
    simp only [List.map_cons, descPathsL, descPaths_mkEntry, List.map_cons, List.map_nil,
      List.cons_append, List.nil_append, List.mem_cons] at hq
    rcases hq with rfl | rfl | rfl | hq
    · exact ⟨0, by simp, Or.inl (by simp)⟩
    · exact ⟨0, by simp, Or.inr (Or.inl (by simp))⟩
    · exact ⟨0, by simp, Or.inr (Or.inr (by simp))⟩
    · obtain ⟨j, hj, hsh⟩ := ih (i + 1) q hq
      refine ⟨j + 1, by simpa using Nat.succ_lt_succ hj, ?_⟩
      rw [show i + (j + 1) = (i + 1) + j by omega]
      exact hsh

theorem findPathTagString_page (pre post : List (String × String)) (cp href : String)
    (hpre : ∀ e ∈ pre, e.1 ≠ cp) :
    findPathTagString (mkContentsPage (pre ++ (cp, href) :: post)) [0]
      (chapterListDiv (pre ++ (cp, href) :: post)) "a" cp
      = some [0, pre.length, 0] := by
  have h0 : nodeAt (mkContentsPage (pre ++ (cp, href) :: post)) [0]
      = some (chapterListDiv (pre ++ (cp, href) :: post)) := rfl
  have hfun : (nodeMatchTagString (mkContentsPage (pre ++ (cp, href) :: post)) "a" cp
        ∘ fun q => [0] ++ q)
      = nodeMatchTagString (chapterListDiv (pre ++ (cp, href) :: post)) "a" cp := by
    funext q
    show nodeMatchTagString _ "a" cp ([0] ++ q) = _
    rw [nodeMatchTagString, nodeAt_append, h0]
    rfl
  rw [findPathTagString, List.find?_map, hfun]
  have hdp : descPaths (chapterListDiv (pre ++ (cp, href) :: post))
      = descPathsL 0 ((pre ++ (cp, href) :: post).map (fun e => mkEntry e.1 e.2)) := by
    simp [chapterListDiv, descPaths]
  rw [hdp]
  have hcore := find_target_core cp href post "div" [("class", "chapter-list")]
    ((pre ++ (cp, href) :: post).map (fun e => mkEntry e.1 e.2)) pre 0
    (fun j => by simp) hpre
  rw [show chapterListDiv (pre ++ (cp, href) :: post)
      = Html.elem "div" [("class", "chapter-list")]
          ((pre ++ (cp, href) :: post).map (fun e => mkEntry e.1 e.2)) from rfl]
  rw [hcore]
  simp

theorem findPathTagString_page_none (entries : List (String × String)) (cp : String)
    (hall : ∀ e ∈ entries, e.1 ≠ cp) :
    findPathTagString (mkContentsPage entries) [0] (chapterListDiv entries) "a" cp
      = none := by
  rw [findPathTagString, List.find?_eq_none]
  intro x hx
  obtain ⟨q, hq, rfl⟩ := List.mem_map.mp hx
  have hq2 : q ∈ descPathsL 0 (entries.map (fun e => mkEntry e.1 e.2)) := by
    simpa [chapterListDiv, descPaths] using hq
  obtain ⟨j, hj, hshape⟩ := mem_descPathsL_mkE entries 0 q hq2
  have hm : (entries.map (fun e => mkEntry e.1 e.2))[j]?
      = some (mkEntry entries[j].1 entries[j].2) := by
    simp [List.getElem?_eq_getElem hj]
  have hne : entries[j].1 ≠ cp := hall entries[j] (List.mem_iff_getElem.mpr ⟨j, hj, rfl⟩)
  have hbeq : ((some entries[j].1 : Option String) == some cp) = false := by
    rw [beq_eq_false_iff_ne]
    simpa using hne
  have hnodej : nodeAt (chapterListDiv entries) [j] = some (mkEntry entries[j].1 entries[j].2) :=
    nodeAt_elem_single _ _ _ _ _ hm
  have hA : nodeAt (chapterListDiv entries) [j, 0] = some (aTag entries[j].1 entries[j].2) := by
    rw [show ([j, 0] : List Nat) = [j] ++ [0] from rfl, nodeAt_append, hnodej]
    rfl
  have hT : nodeAt (chapterListDiv entries) [j, 0, 0] = some (.txt entries[j].1) := by
    rw [show ([j, 0, 0] : List Nat) = [j] ++ [0, 0] from rfl, nodeAt_append, hnodej]
    rfl
  rcases hshape with rfl | rfl | rfl
  · show ¬ nodeMatchTagString (chapterListDiv entries) "a" cp [0 + j] = true
    simp only [Nat.zero_add]
    simp [nodeMatchTagString, hnodej, mkEntry, isTag]
  · show ¬ nodeMatchTagString (chapterListDiv entries) "a" cp [0 + j, 0] = true
    simp only [Nat.zero_add]
    simp [nodeMatchTagString, hA, aTag, isTag, tagString_single_txt, hne]
  · show ¬ nodeMatchTagString (chapterListDiv entries) "a" cp [0 + j, 0, 0] = true
    simp only [Nat.zero_add]
    simp [nodeMatchTagString, hT, isTag]

theorem findParentTag_page (pre post : List (String × String)) (cp href : String) :
    findParentTag (mkContentsPage (pre ++ (cp, href) :: post)) [0, pre.length, 0] "li"
      = some [0, pre.length] := by
  have hm : ((pre ++ (cp, href) :: post).map (fun e => mkEntry e.1 e.2))[pre.length]?
      = some (mkEntry cp href) := by
    rw [List.map_append, List.getElem?_append_right (by simp)]
    simp
  have hnodek : nodeAt (chapterListDiv (pre ++ (cp, href) :: post)) [pre.length]
      = some (mkEntry cp href) :=
    nodeAt_elem_single _ _ _ _ _ hm
  have hnode : nodeAt (mkContentsPage (pre ++ (cp, href) :: post)) [0, pre.length]
      = some (mkEntry cp href) := by
    show nodeAt (chapterListDiv (pre ++ (cp, href) :: post)) [pre.length]
      = some (mkEntry cp href)
    exact hnodek
  have hpp : properPrefixes [0, pre.length, 0] = [[0, pre.length], [0], []] := rfl
  rw [findParentTag, hpp]
  rw [List.find?_cons_of_pos _ (by simp [nodeIsTag, hnode, mkEntry, isTag])]

theorem findNextSiblings_page (pre post : List (String × String)) (cp href : String) :
    findNextSiblings (mkContentsPage (pre ++ (cp, href) :: post)) [0, pre.length]
      = post.map (fun e => mkEntry e.1 e.2) := by
  have hgl : ([0, pre.length] : List Nat).getLast? = some pre.length := rfl
  have hdl : ([0, pre.length] : List Nat).dropLast = [0] := rfl
  have h0 : nodeAt (mkContentsPage (pre ++ (cp, href) :: post)) [0]
      = some (chapterListDiv (pre ++ (cp, href) :: post)) := rfl
  have hdrop : ((pre ++ (cp, href) :: post).map (fun e => mkEntry e.1 e.2)).drop (pre.length + 1)
      = post.map (fun e => mkEntry e.1 e.2) := by
    rw [List.map_append,
      show ((cp, href) :: post).map (fun e => mkEntry e.1 e.2)
        = mkEntry cp href :: post.map (fun e => mkEntry e.1 e.2) from rfl,
      show pre.map (fun e => mkEntry e.1 e.2) ++ mkEntry cp href
            :: post.map (fun e => mkEntry e.1 e.2)
        = (pre.map (fun e => mkEntry e.1 e.2) ++ [mkEntry cp href])
            ++ post.map (fun e => mkEntry e.1 e.2) by simp,
      show pre.length + 1 = (pre.map (fun e => mkEntry e.1 e.2) ++ [mkEntry cp href]).length
        by simp]
    exact List.drop_left _ _
  simp only [findNextSiblings, hgl, hdl, h0, chapterListDiv]
  rw [hdrop]
  rw [List.filter_eq_self.mpr]
  intro x hx
  obtain ⟨e, _, rfl⟩ := List.mem_map.mp hx
  rfl

theorem filterMap_findTag_entries (post : List (String × String)) :
    (post.map (fun e => mkEntry e.1 e.2)).filterMap (fun tag => findTag tag "a")
      = post.map (fun e => aTag e.1 e.2) := by
  induction post with
  | nil => rfl
  | cons e rest ih => simp [List.filterMap_cons, findTag_mkEntry, ih]

/-- Claim C3 (code bug): with no checkpoint, discovery returns the empty
list even though the chapter-list container holds link-bearing entries.
The no-checkpoint branch collects the `<a>` tags themselves and the final
comprehension keeps only tags that contain a *nested* `<a>`, so every
normal link entry is dropped.  Here the container holds two link entries
(two `<a>` descendants), yet `get_headings` returns none of them. -/
theorem get_headings_no_checkpoint_returns_empty :
    get_headings (mkContentsPage [("第一章", "//b/1"), ("第二章", "//b/2")]) none = .ok []
    ∧ (findAllTag (chapterListDiv [("第一章", "//b/1"), ("第二章", "//b/2")]) "a").length = 2 :=
  ⟨rfl, rfl⟩

/-- Claim C4: with a checkpoint, discovery locates the list entry whose
link text exactly equals the checkpoint heading and returns exactly the
link tags of the entries strictly after it; when no entry matches exactly,
it fails with the not-found error (spec name `StructureNotFoundError`) and
the whole run leaves the archive file unchanged. -/
theorem get_headings_checkpoint_spec :
    (∀ (pre post : List (String × String)) (cp href : String),
       (∀ e ∈ pre, e.1 ≠ cp) →
       get_headings (mkContentsPage (pre ++ (cp, href) :: post)) (some cp)
         = .ok (post.map (fun e => aTag e.1 e.2)))
    ∧ ∀ (entries : List (String × String)) (cp : String),
        (∀ e ∈ entries, e.1 ≠ cp) →
        ∀ (archive : String) (site : String → Html) (url : String),
          site url = mkContentsPage entries →
          get_last_heading (some archive) = .ok (some cp) →
          get_headings (mkContentsPage entries) (some cp) = .error .resultNotFound
          ∧ operation (some archive) site url = (some archive, .error .resultNotFound) := by
  constructor
  · intro pre post cp href hpre
    obtain ⟨rest, hsel⟩ := selectPathNodesClass_page (pre ++ (cp, href) :: post)
    simp only [get_headings, hsel, findPathTagString_page pre post cp href hpre,
      findParentTag_page, findNextSiblings_page, filterMap_findTag_entries]
  · intro entries cp hall archive site url hsite hlast
    have herr : get_headings (mkContentsPage entries) (some cp)
        = .error .resultNotFound := by
      obtain ⟨rest, hsel⟩ := selectPathNodesClass_page entries
      simp only [get_headings, hsel, findPathTagString_page_none entries cp hall]
    refine ⟨herr, ?_⟩
    simp only [operation, hlast, hsite, herr]

set_option maxRecDepth 100000 in
/-- Witness for C4: a three-entry contents page with checkpoint at the
second entry yields exactly the third link; a checkpoint absent from the
page raises the not-found error and leaves the archive content unchanged. -/
theorem get_headings_checkpoint_spec_witness :
    get_headings (mkContentsPage [("甲", "//x/1"), ("乙", "//x/2"), ("丙", "//x/3")])
        (some "乙") = .ok [aTag "丙" "//x/3"]
    ∧ operation (some (archiveOf [("丁", "b")]))
        (fun _ => mkContentsPage [("甲", "//x/1")]) "u"
      = (some (archiveOf [("丁", "b")]), .error .resultNotFound) := by
  constructor
  · have h := get_headings_checkpoint_spec.1 [("甲", "//x/1")] [("丙", "//x/3")]
      "乙" "//x/2" (by decide)
    simpa using h
  · exact (get_headings_checkpoint_spec.2 [("甲", "//x/1")] "丁" (by decide)
      (archiveOf [("丁", "b")]) (fun _ => mkContentsPage [("甲", "//x/1")]) "u"
      rfl (by rfl)).2

/-! ## The archive reader over well-formed archives -/

theorem archiveOf_data (recs : List (String × String)) :
    (archiveOf recs).data = archiveL (recs.map (fun r => (r.1.data, r.2.data))) := by
  induction recs with
  | nil => rfl
  | cons r rs ih =>
    have hd1 : ("\n" : String).data = ['\n'] := rfl
    have hd2 : ("\n\n" : String).data = ['\n', '\n'] := rfl
    have hd3 : ("\n\n\n" : String).data = ['\n', '\n', '\n'] := rfl
    simp [archiveOf, archiveL, mkRecord, segA, segB, ih, hd1, hd2, hd3,
      String.data_append]

theorem pySplitGo_skip (sep : List Char) :
    ∀ (d t acc : List Char),
      pySplitGo sep d.length acc (d ++ t) = pySplitGo sep 0 acc t := by
  intro d
  induction d with
  | nil => intro t acc; rfl
  | cons c d ih =>
    intro t acc
    simp only [List.cons_append, List.length_cons, pySplitGo]
    exact ih t acc

theorem pySplitGo_zero_cons (sep acc : List Char) (c : Char) (rest : List Char) :
    pySplitGo sep 0 acc (c :: rest)
      = if sep.isPrefixOf (c :: rest) then
          acc.reverse :: pySplitGo sep (sep.length - 1) [] rest
        else pySplitGo sep 0 (c :: acc) rest := rfl

theorem pySplitGo_append (sep : List Char) (hsep : sep ≠ []) :
    ∀ (a acc t : List Char), ¬ (sep <:+: a) → (∀ x, a.getLast? = some x → x ∉ sep) →
      pySplitGo sep 0 acc (a ++ (sep ++ t))
        = (acc.reverse ++ a) :: pySplitGo sep 0 [] t := by
  intro a
  induction a with
  | nil =>
    intro acc t _ _
    obtain ⟨c, s, rfl⟩ := List.exists_cons_of_ne_nil hsep
    have hpref : (c :: s).isPrefixOf (c :: (s ++ t)) = true := by
      rw [List.isPrefixOf_iff_prefix]
      rw [show (c :: (s ++ t)) = (c :: s) ++ t from rfl]
      exact List.prefix_append _ _
    rw [show (([] : List Char) ++ ((c :: s) ++ t)) = c :: (s ++ t) from rfl,
      pySplitGo_zero_cons, if_pos hpref,
      show (c :: s).length - 1 = s.length by simp,
      pySplitGo_skip, List.append_nil]
  | cons c a ih =>
    intro acc t h1 h2
    have hnp : ¬ (sep <+: (c :: a) ++ (sep ++ t)) := by
      intro hp
      by_cases hlen : sep.length ≤ (c :: a).length
      · have hsub : sep <+: c :: a :=
          List.prefix_of_prefix_length_le hp (List.prefix_append _ _) hlen
        exact h1 hsub.isInfix
      · push_neg at hlen
        have hsub : (c :: a) <+: sep :=
          List.prefix_of_prefix_length_le (List.prefix_append _ _) hp (by omega)
        obtain ⟨x, hx⟩ : ∃ x, (c :: a).getLast? = some x := by
          cases hgl : (c :: a).getLast? with
          | none => simp at hgl
          | some y => exact ⟨y, rfl⟩
        exact h2 x hx (hsub.subset (List.mem_of_getLast?_eq_some hx))
    have hnpb : ¬ (sep.isPrefixOf (c :: (a ++ (sep ++ t))) = true) := by
      intro hb
      exact hnp (by
        rw [show ((c :: a) ++ (sep ++ t)) = c :: (a ++ (sep ++ t)) from rfl]
        exact List.isPrefixOf_iff_prefix.mp hb)
    have h1a : ¬ (sep <:+: a) := fun hi => h1 (List.infix_cons hi)
    have h2a : ∀ x, a.getLast? = some x → x ∉ sep := by
      intro x hx
      apply h2
      cases a with
      | nil => simp at hx
      | cons b l => rw [List.getLast?_cons_cons]; exact hx
    rw [show ((c :: a) ++ (sep ++ t)) = c :: (a ++ (sep ++ t)) from rfl,
      pySplitGo_zero_cons, if_neg hnpb, ih (c :: acc) t h1a h2a]
    simp [List.append_assoc]

theorem pySplit_append_sep (sep a t : List Char) (hsep : sep ≠ [])
    (h1 : ¬ (sep <:+: a)) (h2 : ∀ x, a.getLast? = some x → x ∉ sep) :
    pySplit sep (a ++ (sep ++ t)) = a :: pySplit sep t := by
  unfold pySplit
  rw [pySplitGo_append sep hsep a [] t h1 h2]
  rfl

theorem pyRsplit_append (sep t a : List Char) (hsep : sep ≠ [])
    (h1 : ¬ (sep <:+: a)) (h2 : ∀ x, a.head? = some x → x ∉ sep) :
    pyRsplit sep (t ++ (sep ++ a)) = pyRsplit sep t ++ [a] := by
  unfold pyRsplit
  rw [show (t ++ (sep ++ a)).reverse = a.reverse ++ (sep.reverse ++ t.reverse) by simp]
  rw [pySplit_append_sep sep.reverse a.reverse t.reverse (by simpa using hsep)
    (fun hinf => h1 (List.reverse_infix.mp hinf))
    (by
      intro x hx hmem
      rw [List.getLast?_reverse] at hx
      exact h2 x hx (by simpa using hmem))]
  simp

theorem not_infix_cons_of_ne (sep : List Char) (c : Char) (l : List Char)
    (hsep : sep ≠ []) (hhead : ∀ x ∈ sep, x ≠ c) (h : ¬ (sep <:+: l)) :
    ¬ (sep <:+: c :: l) := by
  intro hinf
  rcases List.infix_cons_iff.mp hinf with hp | hi
  · obtain ⟨d, s, rfl⟩ := List.exists_cons_of_ne_nil hsep
    exact hhead d (by simp) (List.cons_prefix_cons.mp hp).1
  · exact h hi

theorem not_infix_concat_of_ne (sep : List Char) (c : Char) (l : List Char)
    (hsep : sep ≠ []) (hlast : ∀ x ∈ sep, x ≠ c) (h : ¬ (sep <:+: l)) :
    ¬ (sep <:+: l ++ [c]) := by
  intro hinf
  have hrev : sep.reverse <:+: c :: l.reverse := by
    have hr := List.reverse_infix.mpr hinf
    simpa using hr
  exact not_infix_cons_of_ne sep.reverse c l.reverse (by simpa using hsep)
    (fun x hx => hlast x (by simpa using hx))
    (fun hi => h (List.reverse_infix.mp hi)) hrev

theorem not_infix_segA (l : List Char) (h : ¬ (HOR_RULE.data <:+: l)) :
    ¬ (HOR_RULE.data <:+: segA l) := by
  unfold segA
  exact not_infix_cons_of_ne _ _ _ (by decide) (by decide)
    (not_infix_concat_of_ne _ _ _ (by decide) (by decide) h)

theorem not_infix_segB (l : List Char) (h : ¬ (HOR_RULE.data <:+: l)) :
    ¬ (HOR_RULE.data <:+: segB l) := by
  unfold segB
  rw [show l ++ ['\n', '\n', '\n'] = ((l ++ ['\n']) ++ ['\n']) ++ ['\n'] by simp]
  exact not_infix_cons_of_ne _ _ _ (by decide) (by decide)
    (not_infix_cons_of_ne _ _ _ (by decide) (by decide)
      (not_infix_concat_of_ne _ _ _ (by decide) (by decide)
        (not_infix_concat_of_ne _ _ _ (by decide) (by decide)
          (not_infix_concat_of_ne _ _ _ (by decide) (by decide) h))))

theorem pyRsplit_archiveL (recs : List (List Char × List Char))
    (hsafe : ∀ r ∈ recs, ¬ (HOR_RULE.data <:+: r.1) ∧ ¬ (HOR_RULE.data <:+: r.2)) :
    pyRsplit HOR_RULE.data (archiveL recs)
      = [] :: recs.flatMap (fun r => [segA r.1, segB r.2]) := by
  induction recs using List.reverseRecOn with
  | nil => rfl
  | append_singleton rs r ih =>
    have hsafe_rs : ∀ x ∈ rs, ¬ (HOR_RULE.data <:+: x.1) ∧ ¬ (HOR_RULE.data <:+: x.2) :=
      fun x hx => hsafe x (by simp [hx])
    obtain ⟨h1, h2⟩ := hsafe r (by simp)
    have harch : archiveL (rs ++ [r])
        = (archiveL rs ++ (HOR_RULE.data ++ segA r.1)) ++ (HOR_RULE.data ++ segB r.2) := by
      simp [archiveL, List.append_assoc]
    rw [harch]
    rw [pyRsplit_append HOR_RULE.data _ (segB r.2) (by decide) (not_infix_segB _ h2)
      (by
        intro x hx
        simp only [segB, List.head?_cons, Option.some.injEq] at hx
        subst hx
        decide)]
    rw [pyRsplit_append HOR_RULE.data _ (segA r.1) (by decide) (not_infix_segA _ h1)
      (by
        intro x hx
        simp only [segA, List.head?_cons, Option.some.injEq] at hx
        subst hx
        decide)]
    rw [ih hsafe_rs]
    simp

theorem pyStripL_segA (l : List Char) : pyStripL (segA l) = pyStripL l := by
  unfold segA pyStripL
  rw [List.dropWhile_cons_of_pos (by decide)]
  rw [List.dropWhile_append]
  by_cases hemp : (l.dropWhile isPySpace).isEmpty
  · rw [if_pos hemp]
    have hl : l.dropWhile isPySpace = [] := by simpa using hemp
    rw [hl]
    rfl
  · rw [if_neg hemp]
    simp only [List.reverse_append, List.reverse_cons, List.reverse_nil, List.nil_append,
      List.singleton_append]
    rw [List.dropWhile_cons_of_pos (by decide)]

theorem getElem?_pair_from_end (front : List (List Char)) (A B : List Char) :
    (front ++ [A, B])[(front ++ [A, B]).length - 2]? = some A := by
  rw [show (front ++ [A, B]).length - 2 = front.length by simp]
  rw [List.getElem?_append_right (le_refl front.length)]
  simp

theorem get_pair_from_end (front : List (List Char)) (A B : List Char)
    (i : Nat) (hi : i = (front ++ [A, B]).length - 2)
    (h : i < (front ++ [A, B]).length) :
    (front ++ [A, B]).get ⟨i, h⟩ = A := by
  subst hi
  have h2 := getElem?_pair_from_end front A B
  rw [List.getElem?_eq_getElem h] at h2
  have h3 := Option.some.inj h2
  simpa [List.get_eq_getElem] using h3

theorem get_from_end_of_eq (L front : List (List Char)) (A B : List Char)
    (hL : L = front ++ [A, B]) (i : Nat) (hi : i = L.length - 2)
    (h : i < L.length) : L.get ⟨i, h⟩ = A := by
  subst hL
  subst hi
  exact get_pair_from_end front A B _ rfl h

/-- Claim C2: on an archive that is the concatenation of `N ≥ 1`
well-formed ArchiveRecords none of whose headings or bodies contains the
rule delimiter, `get_last_heading` returns exactly the heading of record
`N` — the second-to-last segment of the rsplit on the rule delimiter,
trimmed of surrounding whitespace — never an earlier one. -/
theorem get_last_heading_last_record (recs : List (String × String)) (hne : recs ≠ [])
    (hsafe : ∀ r ∈ recs,
      ¬ (HOR_RULE.data <:+: r.1.data) ∧ ¬ (HOR_RULE.data <:+: r.2.data)) :
    get_last_heading (some (archiveOf recs))
      = .ok (some (pyStrip (recs.getLast hne).1)) := by
  rcases List.eq_nil_or_concat recs with rfl | ⟨rs, r, hrec⟩
  · exact absurd rfl hne
  rw [List.concat_eq_append] at hrec
  subst hrec
  have hmap : ∀ y ∈ (rs ++ [r]).map (fun x => (x.1.data, x.2.data)),
      ¬ (HOR_RULE.data <:+: y.1) ∧ ¬ (HOR_RULE.data <:+: y.2) := by
    intro y hy
    obtain ⟨x, hx, rfl⟩ := List.mem_map.mp hy
    exact hsafe x hx
  have hparts : pyRsplit HOR_RULE.data (archiveOf (rs ++ [r])).data
      = ([] :: (rs.map (fun x => (x.1.data, x.2.data))).flatMap
            (fun x => [segA x.1, segB x.2]))
        ++ [segA r.1.data, segB r.2.data] := by
    rw [archiveOf_data, pyRsplit_archiveL _ hmap]
    simp
  have hcne : archiveOf (rs ++ [r]) ≠ "" := by
    intro hc
    have h0 : pyRsplit HOR_RULE.data (archiveOf (rs ++ [r])).data = [[]] := by
      rw [hc]
      rfl
    rw [hparts] at h0
    have hlen := congrArg List.length h0
    simp at hlen
  simp only [get_last_heading]
  rw [if_neg hcne]
  have hlen2 : 2 ≤ (pyRsplit HOR_RULE.data (archiveOf (rs ++ [r])).data).length := by
    rw [hparts]
    simp
  rw [dif_pos hlen2]
  rw [get_from_end_of_eq _ _ (segA r.1.data) (segB r.2.data) hparts _ rfl]
  rw [show ((rs ++ [r]).getLast hne) = r from List.getLast_concat _]
  have hps : pyStrip (String.mk (segA r.1.data)) = pyStrip r.1 := by
    show String.mk (pyStripL (String.mk (segA r.1.data)).data)
      = String.mk (pyStripL r.1.data)
    rw [show (String.mk (segA r.1.data)).data = segA r.1.data from rfl, pyStripL_segA]
  rw [hps]

set_option maxRecDepth 40000 in
/-- Witness for C2 at a one-record archive. -/
theorem get_last_heading_last_record_witness :
    ([(("甲" : String), ("乙" : String))] ≠ []) ∧
    get_last_heading (some (archiveOf [("甲", "乙")])) = .ok (some (pyStrip "甲")) :=
  ⟨by decide, get_last_heading_last_record [("甲", "乙")] (by decide) (by decide)⟩
